import Mathlib

/-!
# Verification of the sunpy HEK client (`sunpy/net/hek/hek.py`)

A shallow embedding of the HEK query client: JSON values, the `_freeze`
hashable representation, Python-dict operations (insertion-order preserving),
the paginating downloader `HEKClient._download`, `HEKClient.search`,
`HEKClient._merge` and `HEKRow.get`, together with theorems settling the
specification claims about them.

The HTTP server is modelled as a function from page numbers to page outcomes;
the downloader's `while True` loop is modelled with explicit fuel, so that
non-termination of the loop is expressed as the fuel-indexed function
returning `none` for every fuel value.
-/

set_option autoImplicit false

namespace HekSpec

mutual

/-- A JSON value, as decoded by `json.loads`: `None`, booleans, numbers
(modelled as integers), strings, arrays and objects.  Objects are modelled as
insertion-ordered association lists, matching Python dict semantics. -/
inductive JValue where
  | null : JValue
  | bool (b : Bool) : JValue
  | num (n : Int) : JValue
  | str (s : String) : JValue
  | arr (xs : JList) : JValue
  | obj (kvs : JPairs) : JValue
  deriving DecidableEq

/-- A list of JSON values (the contents of a JSON array). -/
inductive JList where
  | nil : JList
  | cons (head : JValue) (tail : JList) : JList
  deriving DecidableEq

/-- The entries of a JSON object, in insertion order. -/
inductive JPairs where
  | nil : JPairs
  | cons (key : String) (value : JValue) (tail : JPairs) : JPairs
  deriving DecidableEq

end

mutual

/-- The hashable values produced by `_freeze`: scalars together with tuples.
A Python 2-tuple `(k, v)` (a frozen dict entry) is the same value as the
frozen form of the list `[k, v]`, so dict entries are encoded as
`tup (str k, v)`. -/
inductive Frozen where
  | null : Frozen
  | bool (b : Bool) : Frozen
  | num (n : Int) : Frozen
  | str (s : String) : Frozen
  | tup (xs : FrozenList) : Frozen
  deriving DecidableEq

/-- The components of a frozen tuple. -/
inductive FrozenList where
  | nil : FrozenList
  | cons (head : Frozen) (tail : FrozenList) : FrozenList
  deriving DecidableEq

end

mutual

/-- `_freeze(obj)`: dicts become tuples of `(key, _freeze(value))` pairs,
lists become tuples of frozen elements, everything else is returned
unchanged. -/
def freeze : JValue → Frozen
  | .null => .null
  | .bool b => .bool b
  | .num n => .num n
  | .str s => .str s
  | .arr xs => .tup (freezeJList xs)
  | .obj kvs => .tup (freezeJPairs kvs)

/-- `_freeze` mapped over the elements of a JSON array. -/
def freezeJList : JList → FrozenList
  | .nil => .nil
  | .cons x xs => .cons (freeze x) (freezeJList xs)

/-- `_freeze` of the items of a JSON object: each entry `(k, v)` becomes the
tuple `(k, _freeze v)`. -/
def freezeJPairs : JPairs → FrozenList
  | .nil => .nil
  | .cons k v rest =>
      .cons (.tup (.cons (.str k) (.cons (freeze v) .nil))) (freezeJPairs rest)

end

/-- A decoded JSON record (one element of a page's `result` list), i.e. a
Python dict: an insertion-ordered association list. -/
abbrev Record := List (String × JValue)

/-- `_freeze` of the items of a top-level record. -/
def freezeEntries : List (String × JValue) → FrozenList
  | [] => .nil
  | (k, v) :: rest =>
      .cons (.tup (.cons (.str k) (.cons (freeze v) .nil))) (freezeEntries rest)

/-- `_freeze` of a whole record (a dict). -/
def freezeRecord (r : Record) : Frozen :=
  .tup (freezeEntries r)

/-- The keys of a record, in order. -/
def recKeys (r : Record) : List String :=
  r.map Prod.fst

/-- A request-parameter dictionary (what `_download` receives and mutates). -/
abbrev Dict := List (String × JValue)

/-- First-match association-list lookup: the semantics of `d[k]` read access
on a Python dict modelled as an ordered association list, with `none` for a
missing key. -/
def dlookup (d : Dict) (k : String) : Option JValue :=
  match d with
  | [] => none
  | (k', v) :: rest => if k' = k then some v else dlookup rest k

/-- `d[k] = v` on a Python dict: if the key is present its value is replaced
in place (keeping its position), otherwise the entry is appended at the end. -/
def dictSet (d : Dict) (k : String) (v : JValue) : Dict :=
  if d.any (fun p => p.1 = k) then
    d.map (fun p => if p.1 = k then (k, v) else p)
  else
    d ++ [(k, v)]

/-- `d.update(e)` on Python dicts: the entries of `e` are set into `d` one by
one, in the iteration order of `e`. -/
def dictUpdate (d e : Dict) : Dict :=
  e.foldl (fun acc p => dictSet acc p.1 p.2) d

/-- Python truthiness of a decoded JSON value, as used by
`if not result['overmax']`: `None`, `False`, `0`, the empty string, the empty
array and the empty object are falsy, everything else is truthy. -/
def isTruthy : JValue → Bool
  | .null => false
  | .bool b => b
  | .num n => n != 0
  | .str s => s != ""
  | .arr .nil => false
  | .arr (.cons _ _) => true
  | .obj .nil => false
  | .obj (.cons _ _ _) => true

/-- An exception raised by third-party code (transport or decoding), carried
as an opaque message. -/
abbrev Exn := String

/-- The behaviour of the server and transport for one page request:
`urlopen` itself may raise, `fd.read()` may raise, the decode/parse inside
the `try` block may raise, or a JSON body with a `result` list and an
`overmax` value is obtained. -/
inductive PageOutcome where
  | urlopenFail (e : Exn) : PageOutcome
  | readFail (e : Exn) : PageOutcome
  | decodeFail (e : Exn) : PageOutcome
  | ok (result : List Record) (overmax : JValue) : PageOutcome
  deriving DecidableEq

/-- What a raising execution of `_download` raises: either an `IOError`
wrapping an original cause (`raise IOError(...) from e`), or the original
exception propagated unwrapped. -/
inductive Raised where
  | ioError (cause : Exn) : Raised
  | uncaught (e : Exn) : Raised
  deriving DecidableEq

/-- The outcome of `_download`: a table built from records via
`dict_keys_same`, the empty `Table()` built without touching the records, or
a raised exception. -/
inductive DlOutcome where
  | table (rows : List Record) : DlOutcome
  | emptyTable : DlOutcome
  | raised (r : Raised) : DlOutcome
  deriving DecidableEq

/-- The rows of the table returned by `_download`, or `none` if it raised. -/
def DlOutcome.rowsOf : DlOutcome → Option (List Record)
  | .table rows => some rows
  | .emptyTable => some []
  | .raised _ => none

/-- All keys appearing in any record of the list, each once. -/
def allKeys (rs : List Record) : List String :=
  (rs.map recKeys).flatten.dedup

/-- Modelled from the spec: `sunpy.util.dict_keys_same` is not under `src/`;
per the spec every row of the resulting table has the same set of columns,
covering every key that appears in any record, so each record is extended
with the keys it is missing (mapped to `None`). -/
def dictKeysSame (rs : List Record) : List Record :=
  rs.map (fun r => r ++ ((allKeys rs).filter (fun k => ¬ k ∈ recKeys r)).map
    (fun k => (k, JValue.null)))

/-- String rendering of the parameter values the client puts in its request
dicts (strings and the integer page counter), as `urllib.parse.urlencode`
would stringify them. -/
def jstr : JValue → String
  | .null => "None"
  | .bool b => if b then "True" else "False"
  | .num n => toString n
  | .str s => s
  | .arr _ => ""
  | .obj _ => ""

/-- Modelled from the spec: `urllib.parse.urlencode` is third-party; the
spec describes URL-encoded query parameters, modelled as `k=v` pairs joined
with `&` in dict order. -/
def urlencode (d : Dict) : String :=
  String.intercalate "&" (d.map (fun p => p.1 ++ "=" ++ jstr p.2))

/-- The URL of one GET request: the client's base url concatenated with the
URL-encoded parameters (`self.url + urllib.parse.urlencode(data)`). -/
def mkUrl (url : String) (d : Dict) : String :=
  url ++ urlencode d

/-- The module constant `DEFAULT_URL`. -/
def DEFAULT_URL : String := "https://www.lmsal.com/hek/her?"

/-- One issued GET request: the full URL handed to `urlopen`, together with
the snapshot of the parameter dict it was encoded from. -/
abbrev Request := String × Dict

/-- The body of `HEKClient._download`'s `while True` loop, with explicit
fuel.  `pages` gives the transport/server behaviour for each page number,
`url` is `self.url`, `data` is the mutable parameter dict, `results` the
accumulated records and `reqs` the issued requests so far.  Fuel exhaustion
is `none`; the Python loop has no bound, so a property of the loop holds
exactly when it holds for every sufficient fuel. -/
def downloadLoop (pages : Nat → PageOutcome) (url : String) (data : Dict)
    (page : Nat) (results : List Record) (reqs : List Request) :
    Nat → Option (List Request × DlOutcome)
  | 0 => none
  | fuel + 1 =>
    let data' := dictSet data "page" (.num (page : Int))
    let reqs' := reqs ++ [(mkUrl url data', data')]
    match pages page with
    | .urlopenFail e => some (reqs', .raised (.uncaught e))
    | .readFail e => some (reqs', .raised (.ioError e))
    | .decodeFail e => some (reqs', .raised (.ioError e))
    | .ok result overmax =>
      let results' := results ++ result
      if isTruthy overmax then
        downloadLoop pages url data' (page + 1) results' reqs' fuel
      else if results'.length > 0 then
        some (reqs', .table (dictKeysSame results'))
      else
        some (reqs', .emptyTable)

/-- `HEKClient._download`: paginate from page 1 with empty accumulators. -/
def hek_download (pages : Nat → PageOutcome) (url : String) (data : Dict)
    (fuel : Nat) : Option (List Request × DlOutcome) :=
  downloadLoop pages url data 1 [] [] fuel

/-- Modelled from the spec: `sunpy.util.unique` is not under `src/`; per the
spec and the docstring of `_merge` it removes duplicates, yielding each
element whose key has not been seen before, in input order. -/
def uniqueBy {α β : Type} [DecidableEq β] (key : α → β) :
    List α → List β → List α
  | [], _ => []
  | x :: xs, seen =>
    if key x ∈ seen then uniqueBy key xs seen
    else x :: uniqueBy key xs (key x :: seen)

/-- `HEKClient._merge`: concatenate the responses and keep only records with
unseen `_freeze` representations. -/
def hek_merge (responses : List (List Record)) : List Record :=
  uniqueBy freezeRecord responses.flatten []

/-- Reference definition: keep, for each `key` value, only the first element
of the list having it, in input order. -/
def firstOcc {α β : Type} [DecidableEq β] (key : α → β) : List α → List α
  | [] => []
  | x :: xs => x :: (firstOcc key xs).filter (fun y => key y ≠ key x)

/-- Modelled from the spec: the full-disk spatial region defaults installed
by `attrs.walker.apply(attrs.SpatialRegion(), {}, default)`; the attrs
walker module is not under `src/`.  Modelled as the full-disk coordinate
filter parameters. -/
def spatialRegionDefault : Dict :=
  [("x1", .str "-5000"), ("x2", .str "5000"),
   ("y1", .str "-5000"), ("y2", .str "5000"),
   ("event_coordsys", .str "helioprojective")]

/-- The class attribute `HEKClient.default`: the fixed entries written in the
class body, followed by the full-disk spatial region applied on top by the
attrs walker. -/
def hekDefault : Dict :=
  [("cosec", .str "2"), ("cmd", .str "search"),
   ("type", .str "column"), ("event_type", .str "**")] ++ spatialRegionDefault

/-- The outcome of `HEKClient.search`: a `HEKTable` with rows, or a raised
exception. -/
inductive SearchOutcome where
  | table (rows : List Record) : SearchOutcome
  | raised (r : Raised) : SearchOutcome
  deriving DecidableEq

/-- The generator `(self._download(data) for data in ndata)` as consumed by
`_merge`: download each sub-query in order, stopping at the first raise.
Returns the issued request snapshots together with either the per-sub-query
row lists or the raised exception. -/
def runDownloads (pagesFor : Nat → Nat → PageOutcome) (url : String)
    (fuel : Nat) :
    Nat → List Dict →
      Option (List Request × Except Raised (List (List Record)))
  | _, [] => some ([], .ok [])
  | i, d :: rest =>
    match hek_download (pagesFor i) url d fuel with
    | none => none
    | some (reqs, .raised r) => some (reqs, .error r)
    | some (reqs, .table rows) =>
      match runDownloads pagesFor url fuel (i + 1) rest with
      | none => none
      | some (reqs2, .error r) => some (reqs ++ reqs2, .error r)
      | some (reqs2, .ok tail) => some (reqs ++ reqs2, .ok (rows :: tail))
    | some (reqs, .emptyTable) =>
      match runDownloads pagesFor url fuel (i + 1) rest with
      | none => none
      | some (reqs2, .error r) => some (reqs ++ reqs2, .error r)
      | some (reqs2, .ok tail) => some (reqs ++ reqs2, .ok ([] :: tail))

/-- `HEKClient.search`, given the output `walkerOut` of
`attrs.walker.create(query, {})` and the server behaviour `pagesFor i` for
the `i`-th sub-query.  Each walker dict is layered over a copy of the
defaults; a single resulting dict is downloaded directly, several are
downloaded and merged with `_merge`. -/
def hek_search (pagesFor : Nat → Nat → PageOutcome) (url : String)
    (walkerOut : List Dict) (fuel : Nat) :
    Option (List Request × SearchOutcome) :=
  let ndata := walkerOut.map (fun elem => dictUpdate hekDefault elem)
  if ndata.length = 1 then
    match hek_download (pagesFor 0) url (ndata.getD 0 []) fuel with
    | none => none
    | some (reqs, .raised r) => some (reqs, .raised r)
    | some (reqs, .table rows) => some (reqs, .table rows)
    | some (reqs, .emptyTable) => some (reqs, .table [])
  else
    match runDownloads pagesFor url fuel 0 ndata with
    | none => none
    | some (reqs, .error r) => some (reqs, .raised r)
    | some (reqs, .ok rowLists) => some (reqs, .table (hek_merge rowLists))

/-- The result of `self[key]` on a `HEKRow`: the value, or a `KeyError` for a
missing column. -/
inductive PyLookup where
  | ok (v : JValue) : PyLookup
  | keyError (k : String) : PyLookup
  deriving DecidableEq

/-- `self[key]` on a `HEKRow`, modelled over the row's column/value pairs. -/
def rowItem (r : Record) (k : String) : PyLookup :=
  match r with
  | [] => .keyError k
  | (k', v) :: rest => if k' = k then .ok v else rowItem rest k

/-- `HEKRow.get(key, default)`: return `self[key]`, and the default if that
raises `KeyError`.  A call omitting the default passes `JValue.null`
(Python's `None`). -/
def hekRowGet (r : Record) (k : String) (dflt : JValue) : JValue :=
  match rowItem r k with
  | .ok v => v
  | .keyError _ => dflt

/-- Whether a raised exception is the wrapping `IOError`. -/
def Raised.isIOError : Raised → Bool
  | .ioError _ => true
  | .uncaught _ => false

/-- The exception `_download` raises when the transport or decoding of a page
fails, and `none` for a successfully decoded page. -/
def failRaises : PageOutcome → Option Raised
  | .urlopenFail e => some (.uncaught e)
  | .readFail e => some (.ioError e)
  | .decodeFail e => some (.ioError e)
  | .ok _ _ => none

/-- The request `_download` issues for page `q` when the parameter dict
before the mutation of its `page` entry is `data`. -/
def reqAt (url : String) (data : Dict) (q : Nat) : Request :=
  (mkUrl url (dictSet data "page" (.num (q : Int))),
   dictSet data "page" (.num (q : Int)))

/-! ## Dictionary lemmas -/

theorem dictSet_cons (k' : String) (u : JValue) (rest : Dict) (k : String)
    (v : JValue) :
    dictSet ((k', u) :: rest) k v =
      if k' = k then
        (k, v) :: rest.map (fun p => if p.1 = k then (k, v) else p)
      else (k', u) :: dictSet rest k v := by
  by_cases hk : k' = k
  · subst hk
    simp [dictSet]
  · by_cases ha : rest.any (fun p => p.1 = k)
    · simp [dictSet, hk, ha]
    · simp [dictSet, hk, ha]

theorem dictSet_dictSet (d : Dict) (k : String) (v w : JValue) :
    dictSet (dictSet d k v) k w = dictSet d k w := by
  induction d with
  | nil => simp [dictSet]
  | cons p rest ih =>
    obtain ⟨k', u⟩ := p
    by_cases hk : k' = k
    · subst hk
      rw [dictSet_cons, if_pos rfl, dictSet_cons, if_pos rfl, dictSet_cons,
        if_pos rfl, List.map_map]
      congr 1
      apply List.map_congr_left
      intro p _
      by_cases hp : p.1 = k' <;> simp [hp]
    · rw [dictSet_cons, if_neg hk, dictSet_cons, if_neg hk, dictSet_cons,
        if_neg hk, ih]

theorem dlookup_dictSet_self (d : Dict) (k : String) (v : JValue) :
    dlookup (dictSet d k v) k = some v := by
  induction d with
  | nil => simp [dictSet, dlookup]
  | cons p rest ih =>
    obtain ⟨k', u⟩ := p
    rw [dictSet_cons]
    by_cases hk : k' = k
    · simp [hk, dlookup]
    · simp [hk, dlookup, ih]

theorem dlookup_map_replace (rest : Dict) (k k₀ : String) (v : JValue)
    (h : k₀ ≠ k) :
    dlookup (rest.map (fun p => if p.1 = k then (k, v) else p)) k₀ =
      dlookup rest k₀ := by
  have hne : ¬ (k = k₀) := fun hh => h hh.symm
  induction rest with
  | nil => rfl
  | cons p rest ih =>
    obtain ⟨k₁, w⟩ := p
    by_cases hk : k₁ = k
    · subst hk
      simp only [List.map_cons]
      rw [if_pos trivial]
      simp [dlookup, hne, ih]
    · simp only [List.map_cons]
      rw [if_neg hk]
      simp only [dlookup]
      split
      · rfl
      · exact ih

theorem dlookup_dictSet_ne (d : Dict) (k k₀ : String) (v : JValue)
    (h : k₀ ≠ k) :
    dlookup (dictSet d k v) k₀ = dlookup d k₀ := by
  have hne : ¬ (k = k₀) := fun hh => h hh.symm
  induction d with
  | nil => simp [dictSet, dlookup, hne]
  | cons p rest ih =>
    obtain ⟨k', u⟩ := p
    rw [dictSet_cons]
    by_cases hk : k' = k
    · subst hk
      simp [dlookup, hne, dlookup_map_replace _ _ _ _ h]
    · simp only [dlookup, if_neg hk]
      split
      · rfl
      · exact ih

theorem dlookup_eq_none (d : Dict) (k : String) :
    dlookup d k = none ↔ ¬ k ∈ recKeys d := by
  induction d with
  | nil => simp [dlookup, recKeys]
  | cons p rest ih =>
    obtain ⟨k', v⟩ := p
    by_cases hk : k' = k
    · subst hk
      simp [dlookup, recKeys]
    · simp [dlookup, recKeys, hk, ih, Ne.symm hk]

theorem dlookup_dictUpdate (e : Dict) : ∀ (d : Dict) (k : String),
    (recKeys e).Nodup →
    dlookup (dictUpdate d e) k = (dlookup e k).or (dlookup d k) := by
  induction e with
  | nil =>
    intro d k _
    simp [dictUpdate, dlookup]
  | cons p rest ih =>
    intro d k hnd
    obtain ⟨k₀, v₀⟩ := p
    rw [show recKeys ((k₀, v₀) :: rest) = k₀ :: recKeys rest from rfl] at hnd
    have hnd₂ := List.nodup_cons.mp hnd
    have hupd : dictUpdate d ((k₀, v₀) :: rest) =
        dictUpdate (dictSet d k₀ v₀) rest := rfl
    rw [hupd, ih _ _ hnd₂.2]
    by_cases hk : k₀ = k
    · subst hk
      have hnone : dlookup rest k₀ = none := (dlookup_eq_none rest k₀).mpr hnd₂.1
      simp [dlookup, hnone, dlookup_dictSet_self]
    · simp [dlookup, hk, dlookup_dictSet_ne _ _ _ _ (fun hh => hk hh.symm)]

/-! ## Download loop lemmas -/

theorem reqAt_setPage (url : String) (data : Dict) (v : JValue) (q : Nat) :
    reqAt url (dictSet data "page" v) q = reqAt url data q := by
  simp [reqAt, dictSet_dictSet]

theorem downloadLoop_setPage (pages : Nat → PageOutcome) (url : String)
    (data : Dict) (v : JValue) (page : Nat) (results : List Record)
    (reqs : List Request) (fuel : Nat) :
    downloadLoop pages url (dictSet data "page" v) page results reqs fuel =
      downloadLoop pages url data page results reqs fuel := by
  cases fuel with
  | zero => rfl
  | succ f => simp only [downloadLoop, dictSet_dictSet]

theorem downloadLoop_shift (pages : Nat → PageOutcome) (url : String)
    (resOf : Nat → List Record) (ovOf : Nat → JValue) (m : Nat) :
    ∀ (p : Nat) (data : Dict) (results : List Record) (reqs : List Request)
      (f : Nat),
    (∀ k, k < m → pages (p + k) = .ok (resOf (p + k)) (ovOf (p + k))) →
    (∀ k, k < m → isTruthy (ovOf (p + k)) = true) →
    downloadLoop pages url data p results reqs (m + f) =
      downloadLoop pages url data (p + m)
        (results ++ ((List.range' p m).map resOf).flatten)
        (reqs ++ (List.range' p m).map (reqAt url data)) f := by
  induction m with
  | zero =>
    intro p data results reqs f _ _
    simp
  | succ m ih =>
    intro p data results reqs f hok htru
    have h0 : pages p = .ok (resOf p) (ovOf p) := by
      simpa using hok 0 (by omega)
    have t0 : isTruthy (ovOf p) = true := by
      simpa using htru 0 (by omega)
    have hfuel : m + 1 + f = (m + f) + 1 := by omega
    rw [hfuel, show p + (m + 1) = (p + 1) + m by omega, List.range'_succ]
    simp only [downloadLoop, h0, t0, if_true, List.map_cons, List.flatten_cons]
    rw [ih (p + 1) (dictSet data "page" (.num (p : Int))) (results ++ resOf p)
      (reqs ++ [(mkUrl url (dictSet data "page" (.num (p : Int))),
        dictSet data "page" (.num (p : Int)))]) f
      (fun k hk => by
        have h := hok (k + 1) (by omega)
        rwa [show p + (k + 1) = (p + 1) + k by omega] at h)
      (fun k hk => by
        have h := htru (k + 1) (by omega)
        rwa [show p + (k + 1) = (p + 1) + k by omega] at h)]
    rw [downloadLoop_setPage]
    rw [List.map_congr_left
      (fun q _ => reqAt_setPage url data (.num (p : Int)) q)]
    show downloadLoop pages url data ((p + 1) + m)
        ((results ++ resOf p) ++ ((List.range' (p + 1) m).map resOf).flatten)
        ((reqs ++ [reqAt url data p]) ++
          (List.range' (p + 1) m).map (reqAt url data)) f = _
    rw [List.append_assoc, List.append_assoc, List.singleton_append]

theorem downloadLoop_fail (pages : Nat → PageOutcome) (url : String)
    (data : Dict) (p : Nat) (results : List Record) (reqs : List Request)
    (f : Nat) (r : Raised) (h : failRaises (pages p) = some r) :
    downloadLoop pages url data p results reqs (f + 1) =
      some (reqs ++ [reqAt url data p], .raised r) := by
  cases hp : pages p with
  | urlopenFail e =>
    rw [hp] at h
    simp only [failRaises, Option.some_inj] at h
    simp [downloadLoop, hp, reqAt, ← h]
  | readFail e =>
    rw [hp] at h
    simp only [failRaises, Option.some_inj] at h
    simp [downloadLoop, hp, reqAt, ← h]
  | decodeFail e =>
    rw [hp] at h
    simp only [failRaises, Option.some_inj] at h
    simp [downloadLoop, hp, reqAt, ← h]
  | ok res ov =>
    rw [hp] at h
    simp [failRaises] at h

theorem downloadLoop_done (pages : Nat → PageOutcome) (url : String)
    (data : Dict) (p : Nat) (results : List Record) (reqs : List Request)
    (f : Nat) (res : List Record) (ov : JValue)
    (hp : pages p = .ok res ov) (hov : isTruthy ov = false) :
    downloadLoop pages url data p results reqs (f + 1) =
      some (reqs ++ [reqAt url data p],
        if (results ++ res).length > 0 then
          .table (dictKeysSame (results ++ res))
        else .emptyTable) := by
  simp only [downloadLoop, hp, hov, reqAt]
  rw [if_neg (by simp)]
  split <;> rfl

theorem download_success_aux (pages : Nat → PageOutcome) (url : String)
    (data : Dict) (resOf : Nat → List Record) (ovOf : Nat → JValue)
    (N fuel : Nat) (hN : 1 ≤ N) (hfuel : N ≤ fuel)
    (hok : ∀ k, 1 ≤ k → k ≤ N → pages k = .ok (resOf k) (ovOf k))
    (htru : ∀ k, 1 ≤ k → k < N → isTruthy (ovOf k) = true)
    (hfal : isTruthy (ovOf N) = false) :
    hek_download pages url data fuel =
      some ((List.range' 1 N).map (reqAt url data),
        if (((List.range' 1 N).map resOf).flatten).length > 0 then
          .table (dictKeysSame (((List.range' 1 N).map resOf).flatten))
        else .emptyTable) := by
  obtain ⟨M, rfl⟩ : ∃ M, N = M + 1 := ⟨N - 1, by omega⟩
  obtain ⟨g, rfl⟩ : ∃ g, fuel = M + (g + 1) := ⟨fuel - M - 1, by omega⟩
  rw [hek_download,
    downloadLoop_shift pages url resOf ovOf M 1 data [] [] (g + 1)
      (fun k hk => hok (1 + k) (by omega) (by omega))
      (fun k hk => htru (1 + k) (by omega) (by omega)),
    downloadLoop_done pages url data (1 + M) _ _ g (resOf (1 + M))
      (ovOf (1 + M)) (hok (1 + M) (by omega) (by omega))
      (by rwa [show 1 + M = M + 1 by omega]),
    List.range'_1_concat]
  simp [List.append_assoc]

theorem download_fail_aux (pages : Nat → PageOutcome) (url : String)
    (data : Dict) (resOf : Nat → List Record) (ovOf : Nat → JValue)
    (N fuel : Nat) (r : Raised) (hN : 1 ≤ N) (hfuel : N ≤ fuel)
    (hok : ∀ k, 1 ≤ k → k < N → pages k = .ok (resOf k) (ovOf k))
    (htru : ∀ k, 1 ≤ k → k < N → isTruthy (ovOf k) = true)
    (hfail : failRaises (pages N) = some r) :
    hek_download pages url data fuel =
      some ((List.range' 1 N).map (reqAt url data), .raised r) := by
  obtain ⟨M, rfl⟩ : ∃ M, N = M + 1 := ⟨N - 1, by omega⟩
  obtain ⟨g, rfl⟩ : ∃ g, fuel = M + (g + 1) := ⟨fuel - M - 1, by omega⟩
  rw [hek_download,
    downloadLoop_shift pages url resOf ovOf M 1 data [] [] (g + 1)
      (fun k hk => hok (1 + k) (by omega) (by omega))
      (fun k hk => htru (1 + k) (by omega) (by omega)),
    downloadLoop_fail pages url data (1 + M) _ _ g r
      (by rwa [show 1 + M = M + 1 by omega]),
    List.range'_1_concat]
  simp

theorem download_diverge_aux (pages : Nat → PageOutcome) (url : String)
    (h : ∀ k, 1 ≤ k → ∃ res ov, pages k = .ok res ov ∧ isTruthy ov = true) :
    ∀ (fuel p : Nat) (data : Dict) (results : List Record)
      (reqs : List Request), 1 ≤ p →
      downloadLoop pages url data p results reqs fuel = none := by
  intro fuel
  induction fuel with
  | zero =>
    intro p data results reqs hp
    rfl
  | succ f ih =>
    intro p data results reqs hp
    obtain ⟨res, ov, hok, htru⟩ := h p hp
    simp only [downloadLoop, hok, htru, if_true]
    exact ih (p + 1) _ _ _ (by omega)

theorem downloadLoop_reqs (pages : Nat → PageOutcome) (url : String) :
    ∀ (fuel p : Nat) (data : Dict) (results : List Record)
      (reqs0 reqs : List Request) (out : DlOutcome),
      downloadLoop pages url data p results reqs0 fuel = some (reqs, out) →
      ∀ r ∈ reqs, r ∈ reqs0 ∨ ∃ q, p ≤ q ∧ r = reqAt url data q := by
  intro fuel
  induction fuel with
  | zero =>
    intro p data results reqs0 reqs out h
    cases h
  | succ f ih =>
    intro p data results reqs0 reqs out h r hr
    cases hp : pages p with
    | urlopenFail e =>
      simp only [downloadLoop, hp, Option.some_inj, Prod.mk.injEq] at h
      obtain ⟨h1, -⟩ := h
      subst h1
      rcases List.mem_append.mp hr with hr | hr
      · exact .inl hr
      · exact .inr ⟨p, le_refl p, by simpa [reqAt] using List.mem_singleton.mp hr⟩
    | readFail e =>
      simp only [downloadLoop, hp, Option.some_inj, Prod.mk.injEq] at h
      obtain ⟨h1, -⟩ := h
      subst h1
      rcases List.mem_append.mp hr with hr | hr
      · exact .inl hr
      · exact .inr ⟨p, le_refl p, by simpa [reqAt] using List.mem_singleton.mp hr⟩
    | decodeFail e =>
      simp only [downloadLoop, hp, Option.some_inj, Prod.mk.injEq] at h
      obtain ⟨h1, -⟩ := h
      subst h1
      rcases List.mem_append.mp hr with hr | hr
      · exact .inl hr
      · exact .inr ⟨p, le_refl p, by simpa [reqAt] using List.mem_singleton.mp hr⟩
    | ok res ov =>
      simp only [downloadLoop, hp] at h
      by_cases hov : isTruthy ov
      · rw [if_pos hov] at h
        rcases ih (p + 1) _ _ _ _ _ h r hr with hr' | ⟨q, hq, hreq⟩
        · rcases List.mem_append.mp hr' with hr'' | hr''
          · exact .inl hr''
          · exact .inr ⟨p, le_refl p,
              by simpa [reqAt] using List.mem_singleton.mp hr''⟩
        · exact .inr ⟨q, by omega, by rwa [reqAt_setPage] at hreq⟩
      · rw [if_neg hov] at h
        split at h <;>
        · simp only [Option.some_inj, Prod.mk.injEq] at h
          obtain ⟨h1, -⟩ := h
          subst h1
          rcases List.mem_append.mp hr with hr | hr
          · exact .inl hr
          · exact .inr ⟨p, le_refl p,
              by simpa [reqAt] using List.mem_singleton.mp hr⟩

/-! ## Deduplication lemmas -/

theorem uniqueBy_skip {α β : Type} [DecidableEq β] (key : α → β) (a : α)
    (as : List α) (seen : List β) (ha : key a ∈ seen) :
    uniqueBy key (a :: as) seen = uniqueBy key as seen := by
  simp [uniqueBy, ha]

theorem uniqueBy_keep {α β : Type} [DecidableEq β] (key : α → β) (a : α)
    (as : List α) (seen : List β) (ha : ¬ key a ∈ seen) :
    uniqueBy key (a :: as) seen = a :: uniqueBy key as (key a :: seen) := by
  simp [uniqueBy, ha]

theorem uniqueBy_eq_firstOcc_filter {α β : Type} [DecidableEq β]
    (key : α → β) :
    ∀ (l : List α) (seen : List β),
    uniqueBy key l seen =
      (firstOcc key l).filter (fun y => ¬ key y ∈ seen) := by
  intro l
  induction l with
  | nil =>
    intro seen
    rfl
  | cons x xs ih =>
    intro seen
    by_cases hx : key x ∈ seen
    · rw [uniqueBy_skip key x xs seen hx, ih seen, firstOcc,
        List.filter_cons, if_neg (by simpa using hx), List.filter_filter]
      refine List.filter_congr fun y hy => ?_
      by_cases hys : key y ∈ seen
      · simp [hys]
      · have hyx : ¬ key y = key x := fun hh => hys (hh ▸ hx)
        simp [hys, hyx]
    · rw [uniqueBy_keep key x xs seen hx, ih (key x :: seen), firstOcc,
        List.filter_cons, if_pos (by simpa using hx), List.filter_filter]
      congr 1
      refine List.filter_congr fun y hy => ?_
      by_cases hys : key y ∈ seen <;> by_cases hyx : key y = key x <;>
        simp [hys, hyx]

theorem hek_merge_eq_firstOcc (responses : List (List Record)) :
    hek_merge responses = firstOcc freezeRecord responses.flatten := by
  rw [hek_merge, uniqueBy_eq_firstOcc_filter]
  simp

theorem uniqueBy_not_seen {α β : Type} [DecidableEq β] (key : α → β) :
    ∀ (l : List α) (seen : List β) (x : α), x ∈ uniqueBy key l seen →
      ¬ key x ∈ seen := by
  intro l
  induction l with
  | nil =>
    intro seen x hx
    cases hx
  | cons a as ih =>
    intro seen x hx
    by_cases ha : key a ∈ seen
    · rw [uniqueBy_skip key a as seen ha] at hx
      exact ih seen x hx
    · rw [uniqueBy_keep key a as seen ha] at hx
      rcases List.mem_cons.mp hx with rfl | hx
      · exact ha
      · intro hmem
        exact ih _ x hx (List.mem_cons_of_mem _ hmem)

theorem uniqueBy_pairwise {α β : Type} [DecidableEq β] (key : α → β) :
    ∀ (l : List α) (seen : List β),
      (uniqueBy key l seen).Pairwise (fun a b => key a ≠ key b) := by
  intro l
  induction l with
  | nil =>
    intro seen
    exact List.Pairwise.nil
  | cons a as ih =>
    intro seen
    by_cases ha : key a ∈ seen
    · rw [uniqueBy_skip key a as seen ha]
      exact ih seen
    · rw [uniqueBy_keep key a as seen ha]
      refine List.Pairwise.cons (fun b hb hab => ?_) (ih _)
      exact uniqueBy_not_seen key as _ b hb
        (by rw [← hab]; exact List.mem_cons_self _ _)

theorem uniqueBy_covers {α β : Type} [DecidableEq β] (key : α → β) :
    ∀ (l : List α) (seen : List β) (x : α), x ∈ l →
      key x ∈ seen ∨ ∃ y ∈ uniqueBy key l seen, key y = key x := by
  intro l
  induction l with
  | nil =>
    intro seen x hx
    cases hx
  | cons a as ih =>
    intro seen x hx
    by_cases ha : key a ∈ seen
    · rw [uniqueBy_skip key a as seen ha]
      rcases List.mem_cons.mp hx with rfl | hx
      · exact .inl ha
      · exact ih seen x hx
    · rw [uniqueBy_keep key a as seen ha]
      rcases List.mem_cons.mp hx with rfl | hx
      · exact .inr ⟨x, List.mem_cons_self _ _, rfl⟩
      · rcases ih (key a :: seen) x hx with hseen | ⟨y, hy, hkey⟩
        · rcases List.mem_cons.mp hseen with heq | hseen
          · exact .inr ⟨a, List.mem_cons_self _ _, heq.symm⟩
          · exact .inl hseen
        · exact .inr ⟨y, List.mem_cons_of_mem _ hy, hkey⟩

theorem uniqueBy_of_pairwise {α β : Type} [DecidableEq β] (key : α → β) :
    ∀ (l : List α) (seen : List β),
      l.Pairwise (fun a b => key a ≠ key b) →
      (∀ x ∈ l, ¬ key x ∈ seen) →
      uniqueBy key l seen = l := by
  intro l
  induction l with
  | nil =>
    intro seen _ _
    rfl
  | cons a as ih =>
    intro seen hp hs
    have ha : ¬ key a ∈ seen := hs a (List.mem_cons_self _ _)
    rw [uniqueBy_keep key a as seen ha]
    congr 1
    refine ih _ (List.pairwise_cons.mp hp).2 fun x hx hmem => ?_
    rcases List.mem_cons.mp hmem with heq | hmem'
    · exact absurd heq.symm ((List.pairwise_cons.mp hp).1 x hx)
    · exact hs x (List.mem_cons_of_mem _ hx) hmem'

theorem uniqueBy_sublist {α β : Type} [DecidableEq β] (key : α → β) :
    ∀ (l : List α) (seen : List β), (uniqueBy key l seen).Sublist l := by
  intro l
  induction l with
  | nil =>
    intro seen
    exact List.Sublist.refl []
  | cons a as ih =>
    intro seen
    by_cases ha : key a ∈ seen
    · rw [uniqueBy_skip key a as seen ha]
      exact (ih seen).cons _
    · rw [uniqueBy_keep key a as seen ha]
      exact (ih _).cons₂ _

/-! ## Column reconciliation lemmas -/

theorem mem_allKeys (rs : List Record) (k : String) :
    k ∈ allKeys rs ↔ ∃ r ∈ rs, k ∈ recKeys r := by
  simp [allKeys, List.mem_dedup, List.mem_flatten]

theorem recKeys_append (r s : Record) :
    recKeys (r ++ s) = recKeys r ++ recKeys s := by
  simp [recKeys]

theorem recKeys_dictKeysSame (rs : List Record) (r' : Record)
    (h : r' ∈ dictKeysSame rs) (k : String) :
    k ∈ recKeys r' ↔ k ∈ allKeys rs := by
  obtain ⟨r, hr, rfl⟩ := List.mem_map.mp h
  rw [recKeys_append]
  constructor
  · intro hk
    rcases List.mem_append.mp hk with hk | hk
    · exact (mem_allKeys rs k).mpr ⟨r, hr, hk⟩
    · have hk' : k ∈ (allKeys rs).filter (fun k => ¬ k ∈ recKeys r) := by
        simpa [recKeys, List.map_map, Function.comp] using hk
      exact (List.mem_filter.mp hk').1
  · intro hk
    by_cases hkr : k ∈ recKeys r
    · exact List.mem_append.mpr (.inl hkr)
    · refine List.mem_append.mpr (.inr ?_)
      have hk' : k ∈ (allKeys rs).filter (fun k => ¬ k ∈ recKeys r) :=
        List.mem_filter.mpr ⟨hk, by simpa using hkr⟩
      simpa [recKeys, List.map_map, Function.comp] using hk'

/-! ## Request origin lemmas -/

theorem hek_download_reqs (pages : Nat → PageOutcome) (url : String)
    (data : Dict) (fuel : Nat) (reqs : List Request) (out : DlOutcome)
    (h : hek_download pages url data fuel = some (reqs, out)) :
    ∀ r ∈ reqs, ∃ q, 1 ≤ q ∧ r = reqAt url data q := by
  intro r hr
  rcases downloadLoop_reqs pages url fuel 1 data [] [] reqs out h r hr
    with h' | h'
  · cases h'
  · exact h'

theorem runDownloads_reqs (pagesFor : Nat → Nat → PageOutcome) (url : String)
    (fuel : Nat) :
    ∀ (ds : List Dict) (i : Nat) (reqs : List Request)
      (res : Except Raised (List (List Record))),
      runDownloads pagesFor url fuel i ds = some (reqs, res) →
      ∀ r ∈ reqs, ∃ d ∈ ds, ∃ q, 1 ≤ q ∧ r = reqAt url d q := by
  intro ds
  induction ds with
  | nil =>
    intro i reqs res h r hr
    simp only [runDownloads, Option.some_inj, Prod.mk.injEq] at h
    obtain ⟨h1, -⟩ := h
    subst h1
    cases hr
  | cons d rest ih =>
    intro i reqs res h r hr
    cases hdl : hek_download (pagesFor i) url d fuel with
    | none =>
      simp only [runDownloads, hdl] at h
      exact Option.noConfusion h
    | some pr =>
      obtain ⟨reqs1, out⟩ := pr
      cases out with
      | raised rr =>
        simp only [runDownloads, hdl, Option.some_inj, Prod.mk.injEq] at h
        obtain ⟨h1, -⟩ := h
        subst h1
        exact ⟨d, List.mem_cons_self _ _,
          hek_download_reqs _ _ _ _ _ _ hdl r hr⟩
      | table rows =>
        cases hrun : runDownloads pagesFor url fuel (i + 1) rest with
        | none =>
          simp only [runDownloads, hdl, hrun] at h
          exact Option.noConfusion h
        | some pr2 =>
          obtain ⟨reqs2, res2⟩ := pr2
          cases res2 with
          | error rr =>
            simp only [runDownloads, hdl, hrun, Option.some_inj,
              Prod.mk.injEq] at h
            obtain ⟨h1, -⟩ := h
            subst h1
            rcases List.mem_append.mp hr with hr | hr
            · exact ⟨d, List.mem_cons_self _ _,
                hek_download_reqs _ _ _ _ _ _ hdl r hr⟩
            · obtain ⟨d', hd', hq⟩ := ih (i + 1) _ _ hrun r hr
              exact ⟨d', List.mem_cons_of_mem _ hd', hq⟩
          | ok tail =>
            simp only [runDownloads, hdl, hrun, Option.some_inj,
              Prod.mk.injEq] at h
            obtain ⟨h1, -⟩ := h
            subst h1
            rcases List.mem_append.mp hr with hr | hr
            · exact ⟨d, List.mem_cons_self _ _,
                hek_download_reqs _ _ _ _ _ _ hdl r hr⟩
            · obtain ⟨d', hd', hq⟩ := ih (i + 1) _ _ hrun r hr
              exact ⟨d', List.mem_cons_of_mem _ hd', hq⟩
      | emptyTable =>
        cases hrun : runDownloads pagesFor url fuel (i + 1) rest with
        | none =>
          simp only [runDownloads, hdl, hrun] at h
          exact Option.noConfusion h
        | some pr2 =>
          obtain ⟨reqs2, res2⟩ := pr2
          cases res2 with
          | error rr =>
            simp only [runDownloads, hdl, hrun, Option.some_inj,
              Prod.mk.injEq] at h
            obtain ⟨h1, -⟩ := h
            subst h1
            rcases List.mem_append.mp hr with hr | hr
            · exact ⟨d, List.mem_cons_self _ _,
                hek_download_reqs _ _ _ _ _ _ hdl r hr⟩
            · obtain ⟨d', hd', hq⟩ := ih (i + 1) _ _ hrun r hr
              exact ⟨d', List.mem_cons_of_mem _ hd', hq⟩
          | ok tail =>
            simp only [runDownloads, hdl, hrun, Option.some_inj,
              Prod.mk.injEq] at h
            obtain ⟨h1, -⟩ := h
            subst h1
            rcases List.mem_append.mp hr with hr | hr
            · exact ⟨d, List.mem_cons_self _ _,
                hek_download_reqs _ _ _ _ _ _ hdl r hr⟩
            · obtain ⟨d', hd', hq⟩ := ih (i + 1) _ _ hrun r hr
              exact ⟨d', List.mem_cons_of_mem _ hd', hq⟩

/-! ## Search branch equations -/

theorem hek_search_single (pagesFor : Nat → Nat → PageOutcome) (url : String)
    (e : Dict) (fuel : Nat) :
    hek_search pagesFor url [e] fuel =
      match hek_download (pagesFor 0) url (dictUpdate hekDefault e) fuel with
      | none => none
      | some (reqs, .raised r) => some (reqs, .raised r)
      | some (reqs, .table rows) => some (reqs, .table rows)
      | some (reqs, .emptyTable) => some (reqs, .table []) := rfl

theorem hek_search_multi (pagesFor : Nat → Nat → PageOutcome) (url : String)
    (walkerOut : List Dict) (fuel : Nat) (h : ¬ walkerOut.length = 1) :
    hek_search pagesFor url walkerOut fuel =
      match runDownloads pagesFor url fuel 0
          (walkerOut.map (fun elem => dictUpdate hekDefault elem)) with
      | none => none
      | some (reqs, .error r) => some (reqs, .raised r)
      | some (reqs, .ok rowLists) =>
          some (reqs, .table (hek_merge rowLists)) := by
  simp only [hek_search, List.length_map, if_neg h]

theorem reqAt_props (url : String) (elem : Dict) (q : Nat) (r : Request)
    (hr : r = reqAt url (dictUpdate hekDefault elem) q) :
    r.2 = dictSet (dictUpdate hekDefault elem) "page" (.num (q : Int)) ∧
    r.1 = mkUrl url r.2 ∧
    dlookup r.2 "page" = some (.num (q : Int)) ∧
    ((recKeys elem).Nodup → ∀ key , ¬ key = "page" →
      dlookup r.2 key = (dlookup elem key).or (dlookup hekDefault key)) := by
  subst hr
  refine ⟨rfl, rfl, dlookup_dictSet_self _ _ _, fun hnd key hkey => ?_⟩
  show dlookup (dictSet (dictUpdate hekDefault elem) "page"
    (.num (q : Int))) key = _
  rw [dlookup_dictSet_ne _ _ _ _ hkey, dlookup_dictUpdate elem hekDefault key hnd]

theorem reqs_page_param (url : String) (data : Dict) (N j : Nat)
    (hj : j < ((List.range' 1 N).map (reqAt url data)).length) :
    dlookup ((((List.range' 1 N).map (reqAt url data)).get ⟨j, hj⟩).2) "page" =
      some (.num ((1 + j : Nat) : Int)) := by
  simp only [List.get_eq_getElem, List.getElem_map, List.getElem_range'_1,
    reqAt]
  exact dlookup_dictSet_self _ _ _

theorem flatten_map_nil {α β : Type} (l : List α) :
    (l.map (fun _ => ([] : List β))).flatten = [] := by
  induction l with
  | nil => rfl
  | cons a as ih => simp [ih]

/-! ## Claims -/

/-- Claim C1, counterexample: with page 1 returning the record `{"a": 1}`
(overmax truthy) and page 2 returning `{"b": 2}` (overmax falsy), the table
rows are the `dict_keys_same` normalisation of the two records, not their
plain concatenation: each row gains the other record's key with value
`None`, so the rows differ from the concatenation of the `result` lists. -/
theorem C1_counterexample :
    hek_download
      (fun k => if k = 1 then .ok [[("a", .num 1)]] (.bool true)
                else .ok [[("b", .num 2)]] (.bool false))
      DEFAULT_URL [] 2 =
      some ([reqAt DEFAULT_URL [] 1, reqAt DEFAULT_URL [] 2],
        .table [[("a", JValue.num 1), ("b", JValue.null)],
                [("b", JValue.num 2), ("a", JValue.null)]]) ∧
    [[("a", JValue.num 1), ("b", JValue.null)],
     [("b", JValue.num 2), ("a", JValue.null)]] ≠
      [[("a", JValue.num 1)], [("b", JValue.num 2)]] :=
  ⟨by decide, by decide⟩

/-- Claim C1 (amended): for every sequence of server page responses,
`HEKClient._download` requests pages with the `page` parameter taking
consecutive values 1, 2, 3, ... in order, appends each response's `result`
list in page order, stops after the first page whose `overmax` flag is
falsy, and the returned table's rows are `dict_keys_same` applied to the
concatenation of the `result` lists of pages `1..N`, where `N` is the first
page with a falsy `overmax` (the plain concatenation when no record is
missing a key). -/
theorem C1_download_pagination (pages : Nat → PageOutcome) (url : String)
    (data : Dict) (resOf : Nat → List Record) (ovOf : Nat → JValue)
    (N fuel : Nat) (hN : 1 ≤ N) (hfuel : N ≤ fuel)
    (hok : ∀ k, 1 ≤ k → k ≤ N → pages k = .ok (resOf k) (ovOf k))
    (htru : ∀ k, 1 ≤ k → k < N → isTruthy (ovOf k) = true)
    (hfal : isTruthy (ovOf N) = false) :
    hek_download pages url data fuel =
      some ((List.range' 1 N).map (reqAt url data),
        if (((List.range' 1 N).map resOf).flatten).length > 0 then
          .table (dictKeysSame (((List.range' 1 N).map resOf).flatten))
        else .emptyTable) ∧
    (∀ j, (hj : j < ((List.range' 1 N).map (reqAt url data)).length) →
      dlookup ((((List.range' 1 N).map (reqAt url data)).get ⟨j, hj⟩).2)
          "page" = some (.num ((1 + j : Nat) : Int))) ∧
    (if (((List.range' 1 N).map resOf).flatten).length > 0 then
        DlOutcome.table (dictKeysSame (((List.range' 1 N).map resOf).flatten))
      else DlOutcome.emptyTable).rowsOf =
      some (dictKeysSame (((List.range' 1 N).map resOf).flatten)) := by
  refine ⟨download_success_aux pages url data resOf ovOf N fuel hN hfuel hok
    htru hfal, fun j hj => reqs_page_param url data N j hj, ?_⟩
  by_cases hlen : (((List.range' 1 N).map resOf).flatten).length > 0
  · rw [if_pos hlen]
    rfl
  · rw [if_neg hlen]
    have hnil : (((List.range' 1 N).map resOf).flatten) = [] := by
      rw [← List.length_eq_zero]
      omega
    rw [hnil]
    rfl

/-- Claim C1 witness: a two-page run evaluated concretely. -/
theorem C1_witness :
    hek_download (fun _ => .ok [[("x", JValue.num 1)]] (.bool false))
      DEFAULT_URL [] 1 =
      some ([reqAt DEFAULT_URL [] 1], .table [[("x", JValue.num 1)]]) := by
  have h := C1_download_pagination
    (fun _ => .ok [[("x", JValue.num 1)]] (.bool false)) DEFAULT_URL []
    (fun _ => [[("x", JValue.num 1)]]) (fun _ => .bool false) 1 1
    (le_refl 1) (le_refl 1) (fun k _ _ => rfl) (fun k h1 h2 => by omega) rfl
  exact h.1.trans (by decide)

/-- Claim C2, counterexample: when the query expands to a single parameter
dictionary, `search` returns `HEKTable(self._download(ndata[0]))` without
passing through `_merge`, so a server answer containing the same record
twice yields a table with two rows equal as records (equal `_freeze`
representations). -/
theorem C2_counterexample :
    hek_search
      (fun _ _ => .ok [[("x", JValue.num 1)], [("x", JValue.num 1)]]
        (.bool false)) DEFAULT_URL [[]] 1 =
      some ([reqAt DEFAULT_URL hekDefault 1],
        .table [[("x", JValue.num 1)], [("x", JValue.num 1)]]) ∧
    ¬ ([[("x", JValue.num 1)], [("x", JValue.num 1)]].Pairwise
        (fun a b => freezeRecord a ≠ freezeRecord b)) :=
  ⟨by decide, by decide⟩

/-- Claim C2 (amended): the result of `HEKClient.search` contains no
duplicate records (no two rows with equal `_freeze` representations)
whenever the query expands to a number of parameter dictionaries other than
one, because only then do the downloads pass through `_merge`; with exactly
one parameter dictionary the download result is returned without
deduplication and duplicates from the server are kept. -/
theorem C2_search_dedup (pagesFor : Nat → Nat → PageOutcome) (url : String)
    (walkerOut : List Dict) (fuel : Nat) (reqs : List Request)
    (rows : List Record) (hlen : ¬ walkerOut.length = 1)
    (h : hek_search pagesFor url walkerOut fuel = some (reqs, .table rows)) :
    rows.Pairwise (fun a b => freezeRecord a ≠ freezeRecord b) := by
  rw [hek_search_multi pagesFor url walkerOut fuel hlen] at h
  cases hrun : runDownloads pagesFor url fuel 0
      (walkerOut.map (fun elem => dictUpdate hekDefault elem)) with
  | none =>
    simp only [hrun] at h
    exact Option.noConfusion h
  | some pr =>
    obtain ⟨reqs2, res⟩ := pr
    cases res with
    | error r =>
      simp only [hrun] at h
      simp at h
    | ok rowLists =>
      simp only [hrun, Option.some_inj, Prod.mk.injEq] at h
      obtain ⟨-, h2⟩ := h
      have hrows : rows = hek_merge rowLists := by
        cases h2
        rfl
      rw [hrows, hek_merge]
      exact uniqueBy_pairwise freezeRecord _ []

/-- Claim C2 witness: two sub-queries both returning the same record merge
to a single row. -/
theorem C2_witness :
    ([[("x", JValue.num 1)]] : List Record).Pairwise
      (fun a b => freezeRecord a ≠ freezeRecord b) :=
  C2_search_dedup
    (fun _ _ => .ok [[("x", JValue.num 1)]] (.bool false)) DEFAULT_URL
    [[("event_type", JValue.str "A")], [("event_type", JValue.str "B")]] 1
    [reqAt DEFAULT_URL (dictUpdate hekDefault [("event_type", JValue.str "A")]) 1,
     reqAt DEFAULT_URL (dictUpdate hekDefault [("event_type", JValue.str "B")]) 1]
    [[("x", JValue.num 1)]] (by decide) (by decide)

/-- Claim C3, counterexample: `urlopen` is called outside the `try` block of
`_download`, so a failure of the HTTP transport operation itself propagates
the original exception unwrapped instead of raising an `IOError` wrapping
it. -/
theorem C3_counterexample :
    hek_download (fun _ => .urlopenFail "connection error") DEFAULT_URL [] 1 =
      some ([reqAt DEFAULT_URL [] 1],
        .raised (.uncaught "connection error")) ∧
    Raised.isIOError (.uncaught "connection error") = false :=
  ⟨by decide, rfl⟩

/-- Claim C3 (amended): a failure of `fd.read()` or of the decoding of the
payload (utf-8 decode or JSON parse, both inside the `try` block) makes
`_download` raise an `IOError` wrapping the original exception as its
cause; a failure of `urlopen` itself, which sits outside the `try` block,
propagates the original exception unwrapped. -/
theorem C3_error_wrapping (pages : Nat → PageOutcome) (url : String)
    (data : Dict) (resOf : Nat → List Record) (ovOf : Nat → JValue)
    (N fuel : Nat) (e : Exn) (hN : 1 ≤ N) (hfuel : N ≤ fuel)
    (hok : ∀ k, 1 ≤ k → k < N → pages k = .ok (resOf k) (ovOf k))
    (htru : ∀ k, 1 ≤ k → k < N → isTruthy (ovOf k) = true) :
    (pages N = .readFail e →
      hek_download pages url data fuel =
        some ((List.range' 1 N).map (reqAt url data),
          .raised (.ioError e))) ∧
    (pages N = .decodeFail e →
      hek_download pages url data fuel =
        some ((List.range' 1 N).map (reqAt url data),
          .raised (.ioError e))) ∧
    (pages N = .urlopenFail e →
      hek_download pages url data fuel =
        some ((List.range' 1 N).map (reqAt url data),
          .raised (.uncaught e))) := by
  refine ⟨fun hf => ?_, fun hf => ?_, fun hf => ?_⟩ <;>
    exact download_fail_aux pages url data resOf ovOf N fuel _ hN hfuel hok
      htru (by rw [hf]; rfl)

/-- Claim C3 witness: a read failure on page 1, evaluated concretely. -/
theorem C3_witness :
    hek_download (fun _ => .readFail "boom") DEFAULT_URL [] 1 =
      some ([reqAt DEFAULT_URL [] 1], .raised (.ioError "boom")) := by
  have h := (C3_error_wrapping (fun _ => .readFail "boom") DEFAULT_URL []
    (fun _ => []) (fun _ => .null) 1 1 "boom" (le_refl 1) (le_refl 1)
    (fun k h1 h2 => by omega) (fun k h1 h2 => by omega)).1 rfl
  exact h.trans (by decide)

/-- Claim C4: `_download` performs no retry and no partial-result recovery:
in a run whose pages `1..N-1` succeed with truthy `overmax` and whose page
`N` fails, every page is requested exactly once (the request list is
exactly pages `1..N`, the `j`-th request carrying page parameter `j+1`),
the call raises, and the raising outcome carries none of the records
accumulated from pages `1..N-1`. -/
theorem C4_no_retry (pages : Nat → PageOutcome) (url : String) (data : Dict)
    (resOf : Nat → List Record) (ovOf : Nat → JValue) (N fuel : Nat)
    (r : Raised) (hN : 1 ≤ N) (hfuel : N ≤ fuel)
    (hok : ∀ k, 1 ≤ k → k < N → pages k = .ok (resOf k) (ovOf k))
    (htru : ∀ k, 1 ≤ k → k < N → isTruthy (ovOf k) = true)
    (hfail : failRaises (pages N) = some r) :
    hek_download pages url data fuel =
      some ((List.range' 1 N).map (reqAt url data), .raised r) ∧
    ((List.range' 1 N).map (reqAt url data)).length = N ∧
    (∀ j, (hj : j < ((List.range' 1 N).map (reqAt url data)).length) →
      dlookup ((((List.range' 1 N).map (reqAt url data)).get ⟨j, hj⟩).2)
          "page" = some (.num ((1 + j : Nat) : Int))) ∧
    DlOutcome.rowsOf (.raised r) = none := by
  refine ⟨download_fail_aux pages url data resOf ovOf N fuel r hN hfuel hok
    htru hfail, by simp, fun j hj => reqs_page_param url data N j hj, rfl⟩

/-- Claim C4 witness: a transport failure on page 1 with spare fuel issues a
single request and returns no rows. -/
theorem C4_witness :
    hek_download (fun _ => .urlopenFail "refused") DEFAULT_URL [] 3 =
      some ([reqAt DEFAULT_URL [] 1], .raised (.uncaught "refused")) ∧
    DlOutcome.rowsOf (.raised (.uncaught "refused")) = none := by
  have h := C4_no_retry (fun _ => .urlopenFail "refused") DEFAULT_URL []
    (fun _ => []) (fun _ => .null) 1 3 (.uncaught "refused") (le_refl 1)
    (by omega) (fun k h1 h2 => by omega) (fun k h1 h2 => by omega) rfl
  exact ⟨h.1.trans (by decide), h.2.2.2⟩

/-- Claim C5: if some page `N` is the first whose response has a falsy
`overmax` flag, `_download` terminates after exactly `N` page requests (for
every sufficient fuel); if every page response has a truthy `overmax` flag,
the loop never terminates (the fuel-indexed loop returns `none` for every
fuel). -/
theorem C5_termination :
    (∀ (pages : Nat → PageOutcome) (url : String) (data : Dict)
       (resOf : Nat → List Record) (ovOf : Nat → JValue) (N fuel : Nat),
       1 ≤ N → N ≤ fuel →
       (∀ k, 1 ≤ k → k ≤ N → pages k = .ok (resOf k) (ovOf k)) →
       (∀ k, 1 ≤ k → k < N → isTruthy (ovOf k) = true) →
       isTruthy (ovOf N) = false →
       hek_download pages url data fuel =
         some ((List.range' 1 N).map (reqAt url data),
           if (((List.range' 1 N).map resOf).flatten).length > 0 then
             .table (dictKeysSame (((List.range' 1 N).map resOf).flatten))
           else .emptyTable) ∧
       ((List.range' 1 N).map (reqAt url data)).length = N) ∧
    (∀ (pages : Nat → PageOutcome) (url : String) (data : Dict) (fuel : Nat),
       (∀ k, 1 ≤ k → ∃ res ov, pages k = .ok res ov ∧ isTruthy ov = true) →
       hek_download pages url data fuel = none) := by
  constructor
  · intro pages url data resOf ovOf N fuel hN hfuel hok htru hfal
    exact ⟨download_success_aux pages url data resOf ovOf N fuel hN hfuel hok
      htru hfal, by simp⟩
  · intro pages url data fuel h
    exact download_diverge_aux pages url h fuel 1 data [] [] (le_refl 1)

/-- Claim C5 witness: a first falsy page terminates after one request; an
always-truthy server exhausts any amount of fuel. -/
theorem C5_witness :
    hek_download (fun _ => .ok [] (.bool false)) DEFAULT_URL [] 1 =
      some ([reqAt DEFAULT_URL [] 1], .emptyTable) ∧
    hek_download (fun _ => .ok [] (.bool true)) DEFAULT_URL [] 37 = none := by
  constructor
  · have h := C5_termination.1 (fun _ => .ok [] (.bool false)) DEFAULT_URL []
      (fun _ => []) (fun _ => .bool false) 1 1 (le_refl 1) (le_refl 1)
      (fun k _ _ => rfl) (fun k h1 h2 => by omega) rfl
    exact h.1.trans (by decide)
  · exact C5_termination.2 (fun _ => .ok [] (.bool true)) DEFAULT_URL [] 37
      (fun k _ => ⟨[], .bool true, rfl, rfl⟩)

/-- Claim C6: for a non-empty collection of downloaded records, possibly
with differing key sets, the table returned by `_download` is built by
passing the records through `dict_keys_same`, after which every row has the
same set of columns, covering every key that appears in any record
(`dict_keys_same` modelled from the spec, as `sunpy.util` is not under
`src/`). -/
theorem C6_column_reconciliation (pages : Nat → PageOutcome) (url : String)
    (data : Dict) (resOf : Nat → List Record) (ovOf : Nat → JValue)
    (N fuel : Nat) (hN : 1 ≤ N) (hfuel : N ≤ fuel)
    (hok : ∀ k, 1 ≤ k → k ≤ N → pages k = .ok (resOf k) (ovOf k))
    (htru : ∀ k, 1 ≤ k → k < N → isTruthy (ovOf k) = true)
    (hfal : isTruthy (ovOf N) = false)
    (hne : (((List.range' 1 N).map resOf).flatten) ≠ []) :
    hek_download pages url data fuel =
      some ((List.range' 1 N).map (reqAt url data),
        .table (dictKeysSame (((List.range' 1 N).map resOf).flatten))) ∧
    (∀ r' ∈ dictKeysSame (((List.range' 1 N).map resOf).flatten), ∀ k,
      k ∈ recKeys r' ↔
        k ∈ allKeys (((List.range' 1 N).map resOf).flatten)) ∧
    (∀ r0 ∈ (((List.range' 1 N).map resOf).flatten), ∀ k, k ∈ recKeys r0 →
      k ∈ allKeys (((List.range' 1 N).map resOf).flatten)) := by
  refine ⟨?_, fun r' hr' k => recKeys_dictKeysSame _ r' hr' k,
    fun r0 hr0 k hk => (mem_allKeys _ k).mpr ⟨r0, hr0, hk⟩⟩
  have h := download_success_aux pages url data resOf ovOf N fuel hN hfuel
    hok htru hfal
  rwa [if_pos (by
    have := List.length_pos.mpr hne
    omega)] at h

/-- Claim C6 witness: a single record, evaluated concretely. -/
theorem C6_witness :
    hek_download (fun _ => .ok [[("a", JValue.num 1)]] (.bool false))
      DEFAULT_URL [] 1 =
      some ([reqAt DEFAULT_URL [] 1], .table [[("a", JValue.num 1)]]) ∧
    ("a" ∈ recKeys [("a", JValue.num 1)] ↔
      "a" ∈ allKeys
        (((List.range' 1 1).map
          (fun _ => [[("a", JValue.num 1)]])).flatten)) := by
  have h := C6_column_reconciliation
    (fun _ => .ok [[("a", JValue.num 1)]] (.bool false)) DEFAULT_URL []
    (fun _ => [[("a", JValue.num 1)]]) (fun _ => .bool false) 1 1
    (le_refl 1) (le_refl 1) (fun k _ _ => rfl) (fun k h1 h2 => by omega) rfl
    (by decide)
  exact ⟨h.1.trans (by decide), h.2.1 [("a", JValue.num 1)] (by decide) "a"⟩

/-- Claim C7: every request issued by `search` is a GET whose URL is the
client's base url concatenated with the URL-encoding of its flat parameter
dict; that dict is a copy of the class defaults (`cosec`, `cmd`, `type`,
`event_type` and the full-disk spatial region) updated with one of the
walker's output dicts, with a `page` counter (at least 1) set by
`_download`; a default survives exactly where the walker dict does not
override it. -/
theorem C7_request_shape (pagesFor : Nat → Nat → PageOutcome) (url : String)
    (walkerOut : List Dict) (fuel : Nat) (reqs : List Request)
    (out : SearchOutcome)
    (h : hek_search pagesFor url walkerOut fuel = some (reqs, out)) :
    ∀ r ∈ reqs, ∃ elem ∈ walkerOut, ∃ q : Nat, 1 ≤ q ∧
      r.2 = dictSet (dictUpdate hekDefault elem) "page" (.num (q : Int)) ∧
      r.1 = mkUrl url r.2 ∧
      dlookup r.2 "page" = some (.num (q : Int)) ∧
      ((recKeys elem).Nodup → ∀ key , ¬ key = "page" →
        dlookup r.2 key = (dlookup elem key).or (dlookup hekDefault key)) := by
  intro r hr
  by_cases hlen : walkerOut.length = 1
  · obtain ⟨e, rfl⟩ := List.length_eq_one.mp hlen
    rw [hek_search_single] at h
    cases hdl : hek_download (pagesFor 0) url (dictUpdate hekDefault e)
        fuel with
    | none =>
      simp only [hdl] at h
      exact Option.noConfusion h
    | some pr =>
      obtain ⟨reqs1, out1⟩ := pr
      have hreqs : reqs = reqs1 := by
        cases out1 <;> simp only [hdl, Option.some_inj, Prod.mk.injEq] at h <;>
          exact h.1.symm
      subst hreqs
      obtain ⟨q, hq, hrq⟩ := hek_download_reqs _ _ _ _ _ _ hdl r hr
      exact ⟨e, List.mem_singleton.mpr rfl, q, hq, reqAt_props url e q r hrq⟩
  · rw [hek_search_multi pagesFor url walkerOut fuel hlen] at h
    cases hrun : runDownloads pagesFor url fuel 0
        (walkerOut.map (fun elem => dictUpdate hekDefault elem)) with
    | none =>
      simp only [hrun] at h
      exact Option.noConfusion h
    | some pr =>
      obtain ⟨reqs2, res⟩ := pr
      have hreqs : reqs = reqs2 := by
        cases res <;> simp only [hrun, Option.some_inj, Prod.mk.injEq] at h <;>
          exact h.1.symm
      subst hreqs
      obtain ⟨d, hd, q, hq, hrq⟩ :=
        runDownloads_reqs pagesFor url fuel _ 0 _ _ hrun r hr
      obtain ⟨elem, helem, rfl⟩ := List.mem_map.mp hd
      exact ⟨elem, helem, q, hq, reqAt_props url elem q r hrq⟩

/-- Claim C7 witness: the single request of a one-page search carries a URL
equal to the base url concatenated with its encoded parameter dict. -/
theorem C7_witness :
    (reqAt DEFAULT_URL hekDefault 1).1 =
      mkUrl DEFAULT_URL (reqAt DEFAULT_URL hekDefault 1).2 := by
  have h := C7_request_shape (fun _ _ => .ok [] (.bool false)) DEFAULT_URL
    [[]] 1 [reqAt DEFAULT_URL hekDefault 1] (.table []) (by decide)
  obtain ⟨elem, helem, q, hq, h1, h2, h3, h4⟩ :=
    h (reqAt DEFAULT_URL hekDefault 1) (List.mem_singleton.mpr rfl)
  exact h2

/-- Claim C8: if pagination completes with an empty accumulated record list,
`_download` returns the empty `Table()` rather than raising, and the
records are not passed through `dict_keys_same` in that case (the outcome
is the `emptyTable` branch, distinct from every `table (dictKeysSame _)`
outcome). -/
theorem C8_empty_table (pages : Nat → PageOutcome) (url : String)
    (data : Dict) (ovOf : Nat → JValue) (N fuel : Nat)
    (hN : 1 ≤ N) (hfuel : N ≤ fuel)
    (hok : ∀ k, 1 ≤ k → k ≤ N → pages k = .ok [] (ovOf k))
    (htru : ∀ k, 1 ≤ k → k < N → isTruthy (ovOf k) = true)
    (hfal : isTruthy (ovOf N) = false) :
    hek_download pages url data fuel =
      some ((List.range' 1 N).map (reqAt url data), .emptyTable) ∧
    DlOutcome.emptyTable.rowsOf = some [] ∧
    (∀ rows : List Record,
      DlOutcome.emptyTable ≠ .table (dictKeysSame rows)) := by
  have h := download_success_aux pages url data (fun _ => []) ovOf N fuel hN
    hfuel hok htru hfal
  rw [flatten_map_nil, if_neg (by simp)] at h
  exact ⟨h, rfl, fun rows hcontra => DlOutcome.noConfusion hcontra⟩

/-- Claim C8 witness: one empty falsy page, evaluated concretely. -/
theorem C8_witness :
    hek_download (fun _ => .ok [] (.bool false)) DEFAULT_URL hekDefault 2 =
      some ([reqAt DEFAULT_URL hekDefault 1], .emptyTable) ∧
    DlOutcome.emptyTable.rowsOf = some [] := by
  have h := C8_empty_table (fun _ => .ok [] (.bool false)) DEFAULT_URL
    hekDefault (fun _ => .bool false) 1 2 (le_refl 1) (by omega)
    (fun k _ _ => rfl) (fun k h1 h2 => by omega) rfl
  exact ⟨h.1.trans (by decide), h.2.1⟩

/-- Claim C9: `_merge` is order-preserving and idempotent: its output is
exactly the first occurrence of each record (by `_freeze` key) in input
iteration order, it is a sublist of the concatenated input, it contains no
two elements with equal `_freeze` representations while covering every
input `_freeze` value, and applying `_merge` to its own output (as a single
response) returns it unchanged (`unique` modelled from the spec, as
`sunpy.util` is not under `src/`). -/
theorem C9_merge_properties (responses : List (List Record)) :
    hek_merge responses = firstOcc freezeRecord responses.flatten ∧
    (hek_merge responses).Sublist responses.flatten ∧
    (hek_merge responses).Pairwise
      (fun a b => freezeRecord a ≠ freezeRecord b) ∧
    (∀ x ∈ responses.flatten, ∃ y ∈ hek_merge responses,
      freezeRecord y = freezeRecord x) ∧
    hek_merge [hek_merge responses] = hek_merge responses := by
  refine ⟨hek_merge_eq_firstOcc responses, ?_, ?_, ?_, ?_⟩
  · rw [hek_merge]
    exact uniqueBy_sublist freezeRecord responses.flatten []
  · rw [hek_merge]
    exact uniqueBy_pairwise freezeRecord responses.flatten []
  · intro x hx
    rcases uniqueBy_covers freezeRecord responses.flatten [] x hx
      with hmem | hy
    · cases hmem
    · exact hy
  · show uniqueBy freezeRecord ([hek_merge responses] : List (List Record)).flatten [] = _
    have hfl : ([hek_merge responses] : List (List Record)).flatten =
        hek_merge responses := by simp
    rw [hfl]
    exact uniqueBy_of_pairwise freezeRecord (hek_merge responses) []
      (by rw [hek_merge]; exact uniqueBy_pairwise freezeRecord _ [])
      (fun x _ hmem => List.not_mem_nil _ hmem)

/-- Claim C9 witness: merging two copies of a record keeps the first and is
idempotent. -/
theorem C9_witness :
    hek_merge [[[("x", JValue.num 1)]], [[("x", JValue.num 1)]]] =
      [[("x", JValue.num 1)]] ∧
    hek_merge [hek_merge [[[("x", JValue.num 1)]], [[("x", JValue.num 1)]]]] =
      hek_merge [[[("x", JValue.num 1)]], [[("x", JValue.num 1)]]] := by
  have h :=
    C9_merge_properties [[[("x", JValue.num 1)]], [[("x", JValue.num 1)]]]
  exact ⟨h.1.trans (by decide), h.2.2.2.2⟩

/-- Claim C10: `HEKRow.get` returns the row's value for the key when the
lookup succeeds, returns the supplied default (`None` when the call omits
it) when the lookup raises `KeyError`, and never propagates the
`KeyError`: the lookup either succeeds or raises `KeyError`, and both
cases are handled. -/
theorem C10_row_get (r : Record) (k : String) (dflt : JValue) :
    ((∃ v, rowItem r k = .ok v) ∨ rowItem r k = .keyError k) ∧
    (∀ v, rowItem r k = .ok v → hekRowGet r k dflt = v) ∧
    (∀ e, rowItem r k = .keyError e → hekRowGet r k dflt = dflt) := by
  refine ⟨?_, fun v hv => by rw [hekRowGet, hv], fun e he => by
    rw [hekRowGet, he]⟩
  induction r with
  | nil => exact .inr rfl
  | cons p rest ih =>
    obtain ⟨k', v⟩ := p
    by_cases hk : k' = k
    · exact .inl ⟨v, by simp only [rowItem, if_pos hk]⟩
    · simp only [rowItem, if_neg hk]
      exact ih

/-- Claim C10 witness: a present key returns its value, an absent key
returns the supplied default. -/
theorem C10_witness :
    hekRowGet [("a", JValue.num 1)] "a" JValue.null = JValue.num 1 ∧
    hekRowGet [("a", JValue.num 1)] "b" (JValue.str "dflt") =
      JValue.str "dflt" :=
  ⟨(C10_row_get [("a", JValue.num 1)] "a" JValue.null).2.1
      (JValue.num 1) (by decide),
   (C10_row_get [("a", JValue.num 1)] "b" (JValue.str "dflt")).2.2 "b"
      (by decide)⟩

end HekSpec
